import Mathlib

/-!
Verification of the brieftop resource-aggregation engine.

This file gives a shallow embedding of the process-monitoring engine:

* `Monitor.*` embeds `src/unnamed/part_001` (package `monitor`): the
  recursive bottom-up aggregator with the `isRelatedToParent` family
  classifier.  The recursion of `aggregateResources` is general (it is
  not structurally terminating on cyclic parent links), so it is
  modelled fuel-indexed: `none` means the recursion did not complete
  within the given fuel, and a result that is `none` for every fuel is a
  divergent computation.
* `OldMonitor.*` embeds `src/internal/monitor/process.go`: the flat
  two-pass variant without a relation classifier.

Modelling conventions: Go `float64` fields (CPU percentages, the MB
mirror of memory) are modelled as exact rationals `ℚ`; Go `uint64`
memory sums wrap and are modelled as `ℕ` with an explicit `% 2 ^ 64` on
each addition; Go strings are Lean `String`s, with the byte-slice
prefix comparisons of the source modelled as character-list prefix
tests; Go maps with pointer values are modelled as update functions
`ℕ → Option _` threaded through the state.  Fallible collector calls
are modelled with `Option`/`Except`.
-/

-- Rational arithmetic must evaluate inside `decide` witnesses; the
-- library ships these operations `irreducible`.
attribute [local semireducible] Rat.add Rat.mul Rat.inv Rat.sub

namespace Monitor

/-- A related child/thread projected into its parent's view
(`ChildInfo` in the source). -/
structure ChildInfo where
  PID : ℕ
  Name : String
  CPUPercent : ℚ
  MemoryBytes : ℕ
  IsThread : Bool
  deriving DecidableEq, Repr

/-- One process as captured for a tick, together with the aggregation
fields mutated in place by the Go code (`ProcessInfo` in the source;
the `LastUpdate` timestamp is omitted as pure wall-clock metadata). -/
structure ProcessInfo where
  PID : ℕ
  PPID : ℕ
  Name : String
  CPUPercent : ℚ
  MemoryBytes : ℕ
  MemoryMB : ℚ
  Children : List ChildInfo
  Expanded : Bool
  ParentCPU : ℚ
  ParentMemory : ℕ
  deriving DecidableEq, Repr

instance : Inhabited ProcessInfo :=
  ⟨⟨0, 0, "", 0, 0, 0, [], false, 0, 0⟩⟩

/-- Wrap-around size of the Go `uint64` used for memory byte counts. -/
def U64 : ℕ := 2 ^ 64

/-- Addition of Go `uint64` values (wraps modulo `2 ^ 64`). -/
def addU64 (a b : ℕ) : ℕ := (a + b) % U64

/-- `float64(m) / (1024 * 1024)`, the MB mirror kept on each node. -/
def memMB (m : ℕ) : ℚ := (m : ℚ) / (1024 * 1024)

/-- The `systemParents` set of `isRelatedToParent`: well-known
system-init process names that must never absorb children. -/
def isSystemParent (name : String) : Bool :=
  name == "systemd" || name == "init" || name == "launchd"

/-- `isThread` from the source: heuristic thread-vs-child-process
classification.  True when the names coincide, when the parent name is
a strictly shorter prefix of the child name, or when the child's
memory is under a tenth of the (positive) parent memory. -/
def isThread (child parent : ProcessInfo) : Bool :=
  if child.Name = parent.Name then true
  else if parent.Name.length < child.Name.length ∧
      parent.Name.data.isPrefixOf child.Name.data = true then true
  else if 0 < parent.MemoryBytes ∧
      (child.MemoryBytes : ℚ) / (parent.MemoryBytes : ℚ) < 1 / 10 then true
  else false

/-- `isRelatedToParent` from the source: whether a child's resources
are folded into its parent.  False for system-init parents; otherwise
true exactly when the names are equal or one is a prefix of the
other. -/
def isRelatedToParent (child parent : ProcessInfo) : Bool :=
  if isSystemParent parent.Name then false
  else if child.Name = parent.Name then true
  else if parent.Name.length ≤ child.Name.length ∧
      parent.Name.data.isPrefixOf child.Name.data = true then true
  else if child.Name.length ≤ parent.Name.length ∧
      child.Name.data.isPrefixOf parent.Name.data = true then true
  else false

theorem string_length_data (s : String) : s.length = s.data.length := rfl

end Monitor

section ClassifierClaims

open Monitor

/-- Claim C8: `isThread child parent` holds exactly when the names are
equal, or the parent name is a proper (strictly shorter) case-sensitive
prefix of the child name, or the parent memory is positive and the
child-to-parent memory ratio is below one tenth (stated equivalently
over the integers as `10 * child < parent`).  Being a plain function of
the pair, it is pure and call-order independent. -/
theorem isThread_iff (c p : ProcessInfo) :
    isThread c p = true ↔
      c.Name = p.Name ∨
      (p.Name.data <+: c.Name.data ∧ p.Name.length < c.Name.length) ∨
      (0 < p.MemoryBytes ∧ 10 * c.MemoryBytes < p.MemoryBytes) := by
  unfold isThread
  split
  · next h => simp [h]
  · next hne =>
    split
    · next h =>
      obtain ⟨hlen, hpre⟩ := h
      simp only [List.isPrefixOf_iff_prefix] at hpre
      simp [hpre, hlen, hne]
    · next h2 =>
      split
      · next h3 =>
        obtain ⟨hp, hr⟩ := h3
        have hp' : (0 : ℚ) < (p.MemoryBytes : ℚ) := by exact_mod_cast hp
        rw [div_lt_iff₀ hp'] at hr
        have : (10 * c.MemoryBytes : ℚ) < (p.MemoryBytes : ℚ) := by
          calc (10 * c.MemoryBytes : ℚ) = (c.MemoryBytes : ℚ) * (1 / 10) * 10 * 10 := by ring
            _ < (p.MemoryBytes : ℚ) := by nlinarith [hr]
        have hlt : 10 * c.MemoryBytes < p.MemoryBytes := by exact_mod_cast this
        exact iff_of_true rfl (Or.inr (Or.inr ⟨hp, hlt⟩))
      · next h3 =>
        constructor
        · intro hfalse; cases hfalse
        · intro hcase
          rcases hcase with h | ⟨hpre, hlen⟩ | ⟨hp, hlt⟩
          · exact absurd h hne
          · exact absurd ⟨hlen, List.isPrefixOf_iff_prefix.mpr hpre⟩ h2
          · refine absurd ⟨hp, ?_⟩ h3
            have hp' : (0 : ℚ) < (p.MemoryBytes : ℚ) := by exact_mod_cast hp
            rw [div_lt_iff₀ hp']
            have : (10 * c.MemoryBytes : ℚ) < (p.MemoryBytes : ℚ) := by exact_mod_cast hlt
            nlinarith [this]

/-- Claim C7: for a parent whose name is not a system-init name,
`isRelatedToParent` holds exactly when the names are equal or either
name is a (case-sensitive) prefix of the other; identical names (both
prefix directions at once) are classified as related. -/
theorem isRelatedToParent_iff (c p : ProcessInfo)
    (h : isSystemParent p.Name = false) :
    isRelatedToParent c p = true ↔
      (c.Name = p.Name ∨ p.Name.data <+: c.Name.data ∨
        c.Name.data <+: p.Name.data) := by
  unfold isRelatedToParent
  rw [h]
  simp only [Bool.false_eq_true, if_false]
  split
  · next heq => simp [heq]
  · next hne =>
    split
    · next hp =>
      obtain ⟨_, hpre⟩ := hp
      simp only [List.isPrefixOf_iff_prefix] at hpre
      exact iff_of_true rfl (Or.inr (Or.inl hpre))
    · next hp =>
      split
      · next hc =>
        obtain ⟨_, hpre⟩ := hc
        simp only [List.isPrefixOf_iff_prefix] at hpre
        exact iff_of_true rfl (Or.inr (Or.inr hpre))
      · next hc =>
        constructor
        · intro hfalse; cases hfalse
        · intro hcase
          rcases hcase with heq | hpre | hpre
          · exact absurd heq hne
          · refine absurd ⟨?_, List.isPrefixOf_iff_prefix.mpr hpre⟩ hp
            exact hpre.length_le
          · refine absurd ⟨?_, List.isPrefixOf_iff_prefix.mpr hpre⟩ hc
            exact hpre.length_le

/-- Witness for C7 at a concrete non-system pair: parent `chrome`,
child `chromegpu` (parent name a prefix of the child name). -/
theorem isRelatedToParent_iff_witness :
    isSystemParent (⟨1, 0, "chrome", 3, 100, 0, [], false, 0, 0⟩ :
        ProcessInfo).Name = false ∧
      (isRelatedToParent ⟨2, 1, "chromegpu", 2, 50, 0, [], false, 0, 0⟩
          ⟨1, 0, "chrome", 3, 100, 0, [], false, 0, 0⟩ = true ↔
        ((⟨2, 1, "chromegpu", 2, 50, 0, [], false, 0, 0⟩ :
            ProcessInfo).Name =
          (⟨1, 0, "chrome", 3, 100, 0, [], false, 0, 0⟩ :
            ProcessInfo).Name ∨
          (⟨1, 0, "chrome", 3, 100, 0, [], false, 0, 0⟩ :
              ProcessInfo).Name.data <+:
            (⟨2, 1, "chromegpu", 2, 50, 0, [], false, 0, 0⟩ :
              ProcessInfo).Name.data ∨
          (⟨2, 1, "chromegpu", 2, 50, 0, [], false, 0, 0⟩ :
              ProcessInfo).Name.data <+:
            (⟨1, 0, "chrome", 3, 100, 0, [], false, 0, 0⟩ :
              ProcessInfo).Name.data)) :=
  ⟨by decide,
    isRelatedToParent_iff ⟨2, 1, "chromegpu", 2, 50, 0, [], false, 0, 0⟩
      ⟨1, 0, "chrome", 3, 100, 0, [], false, 0, 0⟩ (by decide)⟩

end ClassifierClaims

namespace Monitor

/-- Mutable per-tick state of one aggregation pass: the
`allProcesses` pointer map and the `aggregated` visited set. -/
structure AggState where
  procs : ℕ → Option ProcessInfo
  aggDone : ℕ → Bool

/-- Overwrite the map entry of `pid` (a write through the Go pointer). -/
def setProc (s : AggState) (pid : ℕ) (n : ProcessInfo) : AggState :=
  { s with procs := fun q => if q = pid then some n else s.procs q }

/-- Record `aggregated[pid] = true`. -/
def markDone (s : AggState) (pid : ℕ) : AggState :=
  { s with aggDone := fun q => if q = pid then true else s.aggDone q }

/-- The `for _, childPID := range childPIDs` loop of
`aggregateResources`, threading the state, the running totals and the
`hasRelatedChildren` flag; `step` is the recursive call at the
remaining fuel. -/
def aggChildren (step : ℕ → AggState → Option AggState) (cm : ℕ → List ℕ)
    (pid : ℕ) : List ℕ → AggState → ℚ → ℕ → Bool →
    Option (AggState × ℚ × ℕ × Bool)
  | [], s, tc, tm, rel => some (s, tc, tm, rel)
  | c :: rest, s, tc, tm, rel =>
    match step c s with
    | none => none
    | some s1 =>
      match s1.procs c with
      | none => aggChildren step cm pid rest s1 tc tm rel
      | some childInfo =>
        let pinfo := (s1.procs pid).getD default
        if isRelatedToParent childInfo pinfo then
          let entry : ChildInfo :=
            ⟨childInfo.PID, childInfo.Name, childInfo.CPUPercent,
              childInfo.MemoryBytes, isThread childInfo pinfo⟩
          aggChildren step cm pid rest
            (setProc s1 pid { pinfo with Children := pinfo.Children ++ [entry] })
            (tc + childInfo.CPUPercent) (addU64 tm childInfo.MemoryBytes) true
        else
          aggChildren step cm pid rest s1 tc tm rel

/-- The body of `aggregateResources` at one fuel level: visited-set
guard, missing-process guard, leaf case, and the children loop
followed by the conditional overwrite of the displayed totals.  The
source marks `aggregated[pid] = true` only after the loop over the
children, which is mirrored exactly here. -/
def aggStepBody (step : ℕ → AggState → Option AggState) (cm : ℕ → List ℕ)
    (pid : ℕ) (s : AggState) : Option AggState :=
  if s.aggDone pid then some s
  else
    match s.procs pid with
    | none => some s
    | some info =>
      match cm pid with
      | [] =>
        some (markDone (setProc s pid
          { info with MemoryMB := memMB info.MemoryBytes }) pid)
      | c :: cs =>
        let info1 := { info with
          ParentCPU := info.CPUPercent
          ParentMemory := info.MemoryBytes }
        match aggChildren step cm pid (c :: cs) (setProc s pid info1)
            info.CPUPercent info.MemoryBytes false with
        | none => none
        | some (s2, tc, tm, rel) =>
          let cur := (s2.procs pid).getD info1
          let fin :=
            if rel then
              { cur with
                CPUPercent := tc
                MemoryBytes := tm
                MemoryMB := memMB tm }
            else { cur with MemoryMB := memMB cur.MemoryBytes }
          some (markDone (setProc s2 pid fin) pid)

/-- `aggregateResources` from the source, fuel-indexed.  Each
recursive call costs one unit of fuel; `none` means the recursion did
not complete within the given fuel. -/
def aggStep (cm : ℕ → List ℕ) : ℕ → ℕ → AggState → Option AggState
  | 0, _, _ => none
  | fuel + 1, pid, s => aggStepBody (aggStep cm fuel) cm pid s

/-- The `for pid := range allProcesses` driver of the second pass,
visiting every key of the process map. -/
def aggregateAll (cm : ℕ → List ℕ) (fuel : ℕ) :
    List ℕ → AggState → Option AggState
  | [], s => some s
  | p :: rest, s =>
    match aggStep cm fuel p s with
    | none => none
    | some s1 => aggregateAll cm fuel rest s1

/-- The `allProcesses` map after the first pass: later samples with
the same PID overwrite earlier ones, as in a Go map. -/
def buildProcs (samples : List ProcessInfo) (q : ℕ) : Option ProcessInfo :=
  samples.foldl (fun acc i => if i.PID = q then some i else acc) none

/-- The `childrenMap` built during the first pass: for each sample
with a nonzero PPID, its PID is appended to its parent's child list,
in sample order. -/
def childrenMapOf (samples : List ProcessInfo) (q : ℕ) : List ℕ :=
  (samples.filter fun i => decide (i.PPID ≠ 0) && decide (i.PPID = q)).map
    (·.PID)

/-- One enumeration of the keys of `allProcesses` (a Go map iterates
each key exactly once, in unspecified order). -/
def pidKeys (samples : List ProcessInfo) : List ℕ :=
  (samples.map (·.PID)).dedup

/-- State at the start of the aggregation pass. -/
def initState (samples : List ProcessInfo) : AggState :=
  ⟨buildProcs samples, fun _ => false⟩

/-- The whole second pass of `GetFilteredProcesses`: aggregate every
process bottom-up, fuel-indexed. -/
def runAggregation (fuel : ℕ) (samples : List ProcessInfo) : Option AggState :=
  aggregateAll (childrenMapOf samples) fuel (pidKeys samples)
    (initState samples)

/-- The threshold configuration consumed through `ConfigInterface`. -/
structure MonitorConfig where
  cpuThreshold : ℚ
  memoryThreshold : ℕ
  deriving DecidableEq, Repr

/-- The third-pass qualification test, applied to aggregated values:
`info.CPUPercent >= cpuThreshold || info.MemoryBytes >= memoryThreshold`. -/
def qualP (cfg : MonitorConfig) (n : ProcessInfo) : Bool :=
  decide (cfg.cpuThreshold ≤ n.CPUPercent) ||
    decide (cfg.memoryThreshold ≤ n.MemoryBytes)

/-- The aggregated node set of a tick, enumerated over the map keys. -/
def aggNodes (fuel : ℕ) (samples : List ProcessInfo) :
    Option (List ProcessInfo) :=
  (runAggregation fuel samples).map fun st => (pidKeys samples).filterMap st.procs

/-- The `qualifyingProcesses` set of the third pass. -/
def qualifyingOf (cfg : MonitorConfig) (nodes : List ProcessInfo) :
    List ProcessInfo :=
  nodes.filter (qualP cfg)

/-- The fourth pass: qualifying processes whose parent PID is not
itself a qualifying PID. -/
def topLevelOf (cfg : MonitorConfig) (nodes : List ProcessInfo) :
    List ProcessInfo :=
  (qualifyingOf cfg nodes).filter fun n =>
    decide (n.PPID ∉ (qualifyingOf cfg nodes).map (·.PID))

/-- The comparison underlying the final `sort.Slice` call: the list is
sorted when every later element's CPU is at most every earlier one's. -/
def cpuDescRel (a b : ProcessInfo) : Prop :=
  b.CPUPercent ≤ a.CPUPercent

instance : DecidableRel cpuDescRel := fun a b =>
  inferInstanceAs (Decidable (b.CPUPercent ≤ a.CPUPercent))

instance : IsTotal ProcessInfo cpuDescRel :=
  ⟨fun a b => (le_total b.CPUPercent a.CPUPercent).imp id id⟩

instance : IsTrans ProcessInfo cpuDescRel :=
  ⟨fun _ _ _ h1 h2 => le_trans h2 h1⟩

/-- `sort.Slice(filtered, func(i, j) { return cpu[i] > cpu[j] })`:
one sorted rearrangement with descending CPU. -/
def sortCPUDesc (l : List ProcessInfo) : List ProcessInfo :=
  l.insertionSort cpuDescRel

/-- `GetFilteredProcesses` after a successful scan, starting from the
collected samples: aggregate, qualify, keep top-level rows, sort. -/
def getFilteredCore (fuel : ℕ) (cfg : MonitorConfig)
    (samples : List ProcessInfo) : Option (List ProcessInfo) :=
  (aggNodes fuel samples).map fun nodes => sortCPUDesc (topLevelOf cfg nodes)

/-- One process handle as returned by the platform scan, with each
fallible per-process accessor modelled by an `Option`. -/
structure RawProcess where
  pid : ℕ
  nameRes : Option String
  ppidRes : Option ℕ
  cpuRes : Option ℚ
  memRes : Option ℕ
  deriving DecidableEq, Repr

/-- `getProcessInfo` from the source: fails (and the process is
dropped) exactly when the name or the memory lookup fails; a failing
PPID or CPU lookup falls back to zero. -/
def getProcessInfo (r : RawProcess) : Option ProcessInfo :=
  match r.nameRes, r.memRes with
  | some name, some mem =>
    some ⟨r.pid, r.ppidRes.getD 0, name, r.cpuRes.getD 0, mem, 0, [], false, 0, 0⟩
  | _, _ => none

/-- The first-pass collection loop: processes whose info lookup fails
are skipped. -/
def collectSamples (raws : List RawProcess) : List ProcessInfo :=
  raws.filterMap getProcessInfo

/-- `GetFilteredProcesses` including its error taxonomy: a failing
whole-table scan is surfaced as the only error; the inner `Option` is
the aggregation fuel bound. -/
def getFilteredProcesses (fuel : ℕ) (cfg : MonitorConfig)
    (scan : Except Unit (List RawProcess)) :
    Except Unit (Option (List ProcessInfo)) :=
  match scan with
  | .error e => .error e
  | .ok raws => .ok (getFilteredCore fuel cfg (collectSamples raws))

end Monitor

namespace OldMonitor

open Monitor

/-- Mutable state of the older `GetFilteredProcesses` in
`src/internal/monitor/process.go`: the `allProcesses` struct map and
the key set of `qualifyingProcesses` (with unique PIDs per scan, the
two Go maps share the same structs, so the qualifying map is its key
set plus the shared values). -/
structure OldState where
  procs : ℕ → Option ProcessInfo
  qual : ℕ → Bool

/-- One iteration of the inner child loop of the second pass: append a
`ChildInfo` snapshot of the child to the parent and promote the parent
into the qualifying set when the child qualifies and the parent does
not yet. -/
def pass2Child (pid : ℕ) (st : OldState) (c : ℕ) : OldState :=
  match st.procs c, st.procs pid with
  | some ci, some pi =>
    let entry : ChildInfo :=
      ⟨ci.PID, ci.Name, ci.CPUPercent, ci.MemoryBytes, isThread ci pi⟩
    let procs1 := fun q =>
      if q = pid then some { pi with Children := pi.Children ++ [entry] }
      else st.procs q
    let qual1 :=
      if st.qual c && !(st.qual pid) then
        fun q => if q = pid then true else st.qual q
      else st.qual
    ⟨procs1, qual1⟩
  | _, _ => st

/-- The second pass: build hierarchies and collect children for every
process (no relation filter in this implementation). -/
def pass2 (cm : ℕ → List ℕ) (keys : List ℕ) (st : OldState) : OldState :=
  keys.foldl (fun acc pid => (cm pid).foldl (pass2Child pid) acc) st

/-- The aggregation loop over qualifying processes: a qualifying
process with a nonempty child list takes the sum of all its child
entries plus its own values as displayed values. -/
def oldAggOne (st : OldState) (pid : ℕ) : OldState :=
  if st.qual pid then
    match st.procs pid with
    | some n =>
      if n.Children = [] then st
      else
        let tc := (n.Children.foldl (fun a c => a + c.CPUPercent) 0) + n.CPUPercent
        let tm := addU64 (n.Children.foldl (fun a c => addU64 a c.MemoryBytes) 0)
          n.MemoryBytes
        ⟨fun q =>
            if q = pid then
              some { n with
                ParentCPU := n.CPUPercent
                ParentMemory := n.MemoryBytes
                CPUPercent := tc
                MemoryBytes := tm
                MemoryMB := memMB tm }
            else st.procs q,
          st.qual⟩
    | none => st
  else st

/-- The aggregation pass over the qualifying map. -/
def oldAgg (keys : List ℕ) (st : OldState) : OldState :=
  keys.foldl oldAggOne st

/-- The third pass: keep qualifying processes without a qualifying
parent, setting the MB mirror for childless rows. -/
def oldTop (keys : List ℕ) (st : OldState) : List ProcessInfo :=
  keys.filterMap fun pid =>
    if st.qual pid then
      match st.procs pid with
      | some n =>
        if st.qual n.PPID then none
        else if n.Children = [] then
          some { n with MemoryMB := memMB n.MemoryBytes }
        else some n
      | none => none
    else none

/-- The older `GetFilteredProcesses` on collected samples. -/
def oldCore (cfg : MonitorConfig) (samples : List ProcessInfo) :
    List ProcessInfo :=
  let keys := pidKeys samples
  let cm := childrenMapOf samples
  let st0 : OldState :=
    ⟨buildProcs samples,
      fun q =>
        match buildProcs samples q with
        | some n => qualP cfg n
        | none => false⟩
  let st2 := oldAgg keys (pass2 cm keys st0)
  sortCPUDesc (oldTop keys st2)

/-- The older `GetFilteredProcesses` with its scan-error taxonomy. -/
def oldGetFilteredProcesses (cfg : MonitorConfig)
    (scan : Except Unit (List RawProcess)) : Except Unit (List ProcessInfo) :=
  match scan with
  | .error e => .error e
  | .ok raws => .ok (oldCore cfg (collectSamples raws))

end OldMonitor

section CycleClaim

open Monitor

/-- Two mutually-parented samples: PID 1 cites 2 as parent and PID 2
cites 1, the corrupt/racing PPID pair of the cycle-safety property. -/
def cycRaws : List RawProcess :=
  [⟨1, some "alpha", some 2, some 1, some 10⟩,
    ⟨2, some "beta", some 1, some 1, some 10⟩]

/-- The collected samples of the cyclic scan. -/
def cycS : List ProcessInfo := collectSamples cycRaws

/-- The children map of the cyclic scan. -/
def cycCM : ℕ → List ℕ := childrenMapOf cycS

/-- On the two-process PPID cycle, `aggregateResources` never
completes, whatever the fuel: each of the two entry points re-enters
the other before either is recorded in the visited set. -/
theorem aggStep_cyc (fuel : ℕ) : ∀ s : AggState, s.aggDone 1 = false →
    s.aggDone 2 = false → (s.procs 1).isSome → (s.procs 2).isSome →
    aggStep cycCM fuel 1 s = none ∧ aggStep cycCM fuel 2 s = none := by
  induction fuel with
  | zero => intro s _ _ _ _; exact ⟨rfl, rfl⟩
  | succ f ih =>
    intro s h1 h2 hp1 hp2
    obtain ⟨i1, hi1⟩ := Option.isSome_iff_exists.mp hp1
    obtain ⟨i2, hi2⟩ := Option.isSome_iff_exists.mp hp2
    have hc1 : cycCM 1 = [2] := rfl
    have hc2 : cycCM 2 = [1] := rfl
    constructor
    · show aggStepBody (aggStep cycCM f) cycCM 1 s = none
      unfold aggStepBody
      simp only [h1, Bool.false_eq_true, if_false, hi1, hc1]
      have hrec := (ih (setProc s 1
        { i1 with ParentCPU := i1.CPUPercent, ParentMemory := i1.MemoryBytes })
        h1 h2 (by simp [setProc]) (by simp [setProc, hi2])).2
      simp only [aggChildren, hrec]
    · show aggStepBody (aggStep cycCM f) cycCM 2 s = none
      unfold aggStepBody
      simp only [h2, Bool.false_eq_true, if_false, hi2, hc2]
      have hrec := (ih (setProc s 2
        { i2 with ParentCPU := i2.CPUPercent, ParentMemory := i2.MemoryBytes })
        h1 h2 (by simp [setProc, hi1]) (by simp [setProc])).1
      simp only [aggChildren, hrec]

/-- Claim C2 (refuted as stated; the code diverges): on the snapshot
with `A.ppid = B, B.ppid = A`, `GetFilteredProcesses` never finishes —
for every fuel bound the fuel-indexed aggregation pass yields `none`,
i.e. the recursion of `aggregateResources` re-enters the cycle before
either process is marked visited, so the Go code recurses without
bound instead of producing leaf-equivalent values. -/
theorem cycle_diverges (fuel : ℕ) (cfg : MonitorConfig) :
    getFilteredProcesses fuel cfg (.ok cycRaws) = .ok none := by
  have hkeys : pidKeys cycS = [1, 2] := rfl
  have hstep : aggStep cycCM fuel 1 (initState cycS) = none := by
    cases fuel with
    | zero => rw [aggStep]
    | succ f =>
      exact (aggStep_cyc (f + 1) (initState cycS) rfl rfl (by decide)
        (by decide)).1
  have hcm : childrenMapOf cycS = cycCM := rfl
  show Except.ok (getFilteredCore fuel cfg cycS) = _
  unfold getFilteredCore aggNodes runAggregation
  rw [hkeys, hcm]
  simp only [aggregateAll, hstep, Option.map_none']

end CycleClaim

section ErrorClaim

open Monitor

/-- Dropping the raw handles whose info lookup fails does not change
the collected sample list. -/
theorem collectSamples_filter (raws : List RawProcess) :
    collectSamples (raws.filter fun r => (getProcessInfo r).isSome) =
      collectSamples raws := by
  induction raws with
  | nil => rfl
  | cons r t ih =>
    by_cases h : (getProcessInfo r).isSome
    · obtain ⟨v, hv⟩ := Option.isSome_iff_exists.mp h
      simp [collectSamples, List.filter_cons, h, List.filterMap_cons, hv] at ih ⊢
      exact ih
    · have hnone : getProcessInfo r = none := Option.not_isSome_iff_eq_none.mp h
      simp [collectSamples, List.filter_cons, h, List.filterMap_cons, hnone] at ih ⊢
      exact ih

/-- Claim C9: `GetFilteredProcesses` errors exactly when the whole
platform scan errors — a failed scan is surfaced unchanged, a
successful scan always yields an `ok` result, and raw handles whose
individual info retrieval fails are simply omitted (removing them
from the scan does not change the outcome). -/
theorem error_taxonomy (fuel : ℕ) (cfg : MonitorConfig) :
    getFilteredProcesses fuel cfg (.error ()) = .error () ∧
      (∀ raws, ∃ o, getFilteredProcesses fuel cfg (.ok raws) = .ok o) ∧
      (∀ raws, getFilteredProcesses fuel cfg
          (.ok (raws.filter fun r => (getProcessInfo r).isSome)) =
        getFilteredProcesses fuel cfg (.ok raws)) := by
  refine ⟨rfl, fun raws => ⟨_, rfl⟩, fun raws => ?_⟩
  show Except.ok (getFilteredCore fuel cfg _) = Except.ok (getFilteredCore fuel cfg _)
  rw [collectSamples_filter]

end ErrorClaim

section RankingClaim

open Monitor

/-- Claim C10: any list returned by `GetFilteredProcesses` is sorted
by aggregated CPU in descending order — every later entry's CPU is at
most every earlier entry's (so in particular each adjacent pair is
ordered); equal values are not ordered further. -/
theorem ranking_sorted (fuel : ℕ) (cfg : MonitorConfig)
    (samples : List ProcessInfo) (res : List ProcessInfo)
    (h : getFilteredCore fuel cfg samples = some res) :
    res.Pairwise fun a b => b.CPUPercent ≤ a.CPUPercent := by
  unfold getFilteredCore at h
  obtain ⟨nodes, _, rfl⟩ := Option.map_eq_some'.mp h
  exact List.sorted_insertionSort cpuDescRel (topLevelOf cfg nodes)

/-- Concrete snapshot for the ranking witness. -/
def rkS : List ProcessInfo :=
  [⟨1, 0, "idle", 1, 30, 0, [], false, 0, 0⟩,
    ⟨2, 0, "worker", 9, 20, 0, [], false, 0, 0⟩,
    ⟨3, 0, "busy", 4, 10, 0, [], false, 0, 0⟩]

/-- Result of the ranking witness run. -/
def rkRes : List ProcessInfo := (getFilteredCore 1 ⟨1, 5⟩ rkS).getD []

/-- Witness for C10 at a concrete three-process snapshot. -/
theorem ranking_sorted_witness :
    getFilteredCore 1 ⟨1, 5⟩ rkS = some rkRes ∧
      rkRes.Pairwise fun a b => b.CPUPercent ≤ a.CPUPercent :=
  ⟨by decide, ranking_sorted 1 ⟨1, 5⟩ rkS rkRes (by decide)⟩

end RankingClaim

section ThresholdClaim

open Monitor

/-- Claim C5: after aggregation, a node is in the qualifying set
exactly when its aggregated CPU reaches the CPU threshold or its
aggregated memory reaches the memory threshold (either suffices), and
the returned rows are drawn from that qualifying set. -/
theorem threshold_qualification (fuel : ℕ) (cfg : MonitorConfig)
    (samples : List ProcessInfo) (nodes : List ProcessInfo)
    (h : aggNodes fuel samples = some nodes) :
    (∀ n, n ∈ qualifyingOf cfg nodes ↔
      n ∈ nodes ∧ (cfg.cpuThreshold ≤ n.CPUPercent ∨
        cfg.memoryThreshold ≤ n.MemoryBytes)) ∧
      ∀ res, getFilteredCore fuel cfg samples = some res →
        ∀ r ∈ res, r ∈ qualifyingOf cfg nodes := by
  constructor
  · intro n
    simp [qualifyingOf, List.mem_filter, qualP, Bool.or_eq_true,
      decide_eq_true_iff]
  · intro res hres r hr
    unfold getFilteredCore at hres
    rw [h] at hres
    simp only [Option.map_some', Option.some_inj] at hres
    subst hres
    have hr' : r ∈ topLevelOf cfg nodes :=
      (List.Perm.mem_iff (List.perm_insertionSort cpuDescRel _)).mp hr
    exact List.mem_of_mem_filter hr'

/-- Concrete snapshot for the threshold witness: one node passes only
the CPU test, one only the memory test, one neither. -/
def thS : List ProcessInfo :=
  [⟨1, 0, "cpuheavy", 50, 10, 0, [], false, 0, 0⟩,
    ⟨2, 0, "memheavy", 1, 4000, 0, [], false, 0, 0⟩,
    ⟨3, 0, "tiny", 1, 10, 0, [], false, 0, 0⟩]

/-- Aggregated nodes of the threshold witness run. -/
def thNodes : List ProcessInfo := (aggNodes 1 thS).getD []

/-- Witness for C5 at a concrete snapshot with a CPU-only and a
memory-only qualifier. -/
theorem threshold_qualification_witness :
    aggNodes 1 thS = some thNodes ∧
      ((∀ n, n ∈ qualifyingOf ⟨10, 1000⟩ thNodes ↔
        n ∈ thNodes ∧ ((10 : ℚ) ≤ n.CPUPercent ∨ (1000 : ℕ) ≤ n.MemoryBytes)) ∧
        ∀ res, getFilteredCore 1 ⟨10, 1000⟩ thS = some res →
          ∀ r ∈ res, r ∈ qualifyingOf ⟨10, 1000⟩ thNodes) :=
  ⟨by decide, threshold_qualification 1 ⟨10, 1000⟩ thS thNodes (by decide)⟩

end ThresholdClaim

section CounterexampleClaims

open Monitor

/-- Adversarial snapshot for conservation: two related processes whose
`uint64` memory values sum to exactly `2 ^ 64`, so the running total
wraps to zero. -/
def ovS : List ProcessInfo :=
  [⟨1, 0, "app", 0, 2 ^ 63, 0, [], false, 0, 0⟩,
    ⟨2, 1, "app", 0, 2 ^ 63, 0, [], false, 0, 0⟩]

/-- The aggregation state of the overflow run. -/
def ovState : AggState := (runAggregation 2 ovS).get (by decide)

/-- The aggregated parent node of the overflow run. -/
def ovNode : ProcessInfo := (ovState.procs 1).get (by decide)

/-- Counterexample to claim C1 as stated: on `ovS` the aggregation
completes, the parent records its child, yet its aggregated memory is
`0` (the `uint64` sum wrapped) while the original memory plus the sum
of the recorded child entries is `2 ^ 64` — the memory equation does
not hold exactly. -/
theorem conservation_cex :
    runAggregation 2 ovS = some ovState ∧
      ovState.procs 1 = some ovNode ∧
      ovNode.Children ≠ [] ∧
      ovNode.MemoryBytes ≠
        ovNode.ParentMemory + (ovNode.Children.map (·.MemoryBytes)).sum :=
  ⟨(Option.some_get _).symm, (Option.some_get _).symm, by decide, by decide⟩

/-- PPID relation read back from a snapshot: the recorded parent of a
PID, if the PID is in the snapshot. -/
def parentPid (samples : List ProcessInfo) (q : ℕ) : Option ℕ :=
  (buildProcs samples q).map (·.PPID)

/-- `a` is a strict transitive PPID-ancestor of `b` in the snapshot. -/
def AncestorOf (samples : List ProcessInfo) (a b : ℕ) : Prop :=
  Relation.TransGen (fun x y => parentPid samples y = some x) a b

/-- Three-process chain: a qualifying root, a non-qualifying middle
process of an unrelated name, and a qualifying grandchild. -/
def c3S : List ProcessInfo :=
  [⟨1, 0, "g", 10, 0, 0, [], false, 0, 0⟩,
    ⟨2, 1, "q", 0, 0, 0, [], false, 0, 0⟩,
    ⟨3, 2, "p", 10, 0, 0, [], false, 0, 0⟩]

/-- Thresholds for the chain snapshot (memory threshold unreachable). -/
def c3Cfg : MonitorConfig := ⟨5, 10 ^ 15⟩

/-- The returned rows of the chain run. -/
def c3Res : List ProcessInfo := (getFilteredCore 3 c3Cfg c3S).getD []

/-- Counterexample to claim C3 as stated: the returned sequence of the
chain snapshot contains both PID 3 and PID 1, although PID 1 is a
transitive PPID-ancestor of PID 3 (through the non-qualifying middle
PID 2, which the immediate-parent filter never consults). -/
theorem no_double_counting_cex :
    getFilteredCore 3 c3Cfg c3S = some c3Res ∧
      (∃ x ∈ c3Res, x.PID = 1) ∧ (∃ y ∈ c3Res, y.PID = 3) ∧
      AncestorOf c3S 1 3 := by
  refine ⟨by decide, by decide, by decide, ?_⟩
  have h12 : parentPid c3S 2 = some 1 := by decide
  have h23 : parentPid c3S 3 = some 2 := by decide
  exact Relation.TransGen.head h12 (Relation.TransGen.single h23)

/-- Snapshot separating the two engine implementations: a qualifying
parent with a qualifying child of an unrelated name. -/
def c6S : List ProcessInfo :=
  [⟨1, 0, "chrome", 10, 0, 0, [], false, 0, 0⟩,
    ⟨2, 1, "zzz", 7, 0, 0, [], false, 0, 0⟩]

/-- Thresholds for the separating snapshot. -/
def c6Cfg : MonitorConfig := ⟨5, 10 ^ 15⟩

/-- Counterexample to claim C6: on `c6S` the recursive engine of
`src/unnamed/part_001` returns the parent with its own values only
(the child is unrelated, so nothing is folded), while the flat engine
of `src/internal/monitor/process.go` folds every child in and returns
the parent with CPU 17 and a child entry — the two ranked forests
differ. -/
theorem engines_disagree_cex :
    getFilteredCore 2 c6Cfg c6S ≠ some (OldMonitor.oldCore c6Cfg c6S) := by
  decide

end CounterexampleClaims

namespace Monitor

theorem setProc_aggDone (s : AggState) (p : ℕ) (n : ProcessInfo) :
    (setProc s p n).aggDone = s.aggDone := rfl

theorem markDone_procs (s : AggState) (p : ℕ) :
    (markDone s p).procs = s.procs := rfl

theorem setProc_procs_self (s : AggState) (p : ℕ) (n : ProcessInfo) :
    (setProc s p n).procs p = some n := by simp [setProc]

theorem setProc_procs_ne (s : AggState) (p q : ℕ) (n : ProcessInfo)
    (h : q ≠ p) : (setProc s p n).procs q = s.procs q := by simp [setProc, h]

theorem markDone_aggDone_self (s : AggState) (p : ℕ) :
    (markDone s p).aggDone p = true := by simp [markDone]

theorem markDone_aggDone_ne (s : AggState) (p q : ℕ) (h : q ≠ p) :
    (markDone s p).aggDone q = s.aggDone q := by simp [markDone, h]

/-- Per-node conservation: when related children were recorded, the
displayed totals are the original values plus the recorded child
entries (CPU exactly; memory as the wrapped `uint64` sum). -/
def consv (n : ProcessInfo) : Prop :=
  n.Children ≠ [] →
    n.CPUPercent = n.ParentCPU + (n.Children.map (·.CPUPercent)).sum ∧
    n.MemoryBytes =
      (n.ParentMemory + (n.Children.map (·.MemoryBytes)).sum) % U64

/-- What one completed visit guarantees about a node, relative to its
initial record: conservation, stable identity fields, and no change at
all (beyond the MB mirror and the original-value fields) for
system-init-named nodes. -/
def nodeInv (procs0 : ℕ → Option ProcessInfo) (q : ℕ) (n : ProcessInfo) :
    Prop :=
  consv n ∧
    ∀ n0, procs0 q = some n0 →
      n.PID = n0.PID ∧ n.PPID = n0.PPID ∧ n.Name = n0.Name ∧
        (isSystemParent n0.Name = true →
          n.CPUPercent = n0.CPUPercent ∧ n.MemoryBytes = n0.MemoryBytes ∧
            n.Children = n0.Children)

/-- Invariant of the states reachable between calls: a node outside
the in-progress list `E` that is not yet visited still holds its
initial record; every visited node satisfies `nodeInv`. -/
def GoodE (procs0 : ℕ → Option ProcessInfo) (E : List ℕ) (s : AggState) :
    Prop :=
  (∀ q, q ∉ E → s.aggDone q = false → s.procs q = procs0 q) ∧
    ∀ q n, s.aggDone q = true → s.procs q = some n → nodeInv procs0 q n

/-- The in-progress record of a parent in its children loop, after the
original-value writes and `acc` child-entry appends. -/
def pendingNode (n0 : ProcessInfo) (acc : List ChildInfo) : ProcessInfo :=
  { n0 with
    ParentCPU := n0.CPUPercent
    ParentMemory := n0.MemoryBytes
    Children := n0.Children ++ acc }

theorem pendingNode_nil (n0 : ProcessInfo) :
    pendingNode n0 [] =
      { n0 with ParentCPU := n0.CPUPercent, ParentMemory := n0.MemoryBytes } := by
  cases n0
  simp [pendingNode]

theorem pendingNode_snoc (n0 : ProcessInfo) (acc : List ChildInfo)
    (e : ChildInfo) :
    { pendingNode n0 acc with
      Children := (pendingNode n0 acc).Children ++ [e] } =
      pendingNode n0 (acc ++ [e]) := by
  cases n0
  simp [pendingNode]

/-- Every PPID edge of the children map descends in rank (the cycle
freedom used by the conservation arguments). -/
def RankOK (cm : ℕ → List ℕ) (rank : ℕ → ℕ) : Prop :=
  ∀ p c, c ∈ cm p → rank c < rank p

/-- Initial records carry no child entries (true of every collected
sample). -/
def InitOK (procs0 : ℕ → Option ProcessInfo) : Prop :=
  ∀ q n, procs0 q = some n → n.Children = []

/-- Everything one completed `aggregateResources` call guarantees:
the state invariant is preserved, visited nodes are permanent (marked
and untouched), unvisited nodes are untouched, new marks are bounded
in rank by the argument, an existing argument node ends marked, and no
map entry appears from nowhere. -/
def StepOut (procs0 : ℕ → Option ProcessInfo) (rank : ℕ → ℕ) (E : List ℕ)
    (p : ℕ) (s s' : AggState) : Prop :=
  GoodE procs0 E s' ∧
    (∀ q, s.aggDone q = true → s'.aggDone q = true ∧ s'.procs q = s.procs q) ∧
    (∀ q, s'.aggDone q = false → s'.procs q = s.procs q ∧ s.aggDone q = false) ∧
    (∀ q, s'.aggDone q = true → s.aggDone q = true ∨ rank q ≤ rank p) ∧
    ((s.procs p).isSome → s'.aggDone p = true) ∧
    ∀ q, (s'.procs q).isSome → (s.procs q).isSome

theorem foldl_addU64_cons (xs : List ℕ) : ∀ b x : ℕ,
    (x :: xs).foldl addU64 b = (b + (x :: xs).sum) % U64 := by
  induction xs with
  | nil => intro b x; simp [addU64]
  | cons y ys ih =>
    intro b x
    show (y :: ys).foldl addU64 (addU64 b x) = _
    rw [ih (addU64 b x) y]
    show ((b + x) % U64 + (y :: ys).sum) % U64 = _
    rw [Nat.mod_add_mod]
    congr 1
    simp [List.sum_cons]
    ring

end Monitor

namespace Monitor

/-- Loop invariant of the children loop of `aggregateResources`: under
a rank hypothesis on the graph and the step guarantees at the current
fuel, the loop keeps the parent unvisited with its in-progress record,
extends the entry accumulator in lockstep with the running totals,
preserves visited nodes, and records no entry at all under a
system-init-named parent. -/
theorem aggChildren_inv (cm : ℕ → List ℕ) (rank : ℕ → ℕ)
    (procs0 : ℕ → Option ProcessInfo) (fuel : ℕ)
    (ih : ∀ E p s s', aggStep cm fuel p s = some s' →
      GoodE procs0 E s → (∀ q ∈ E, rank p < rank q) →
      StepOut procs0 rank E p s s') :
    ∀ (l : List ℕ) (p : ℕ) (E : List ℕ) (s : AggState) (tc : ℚ) (tm : ℕ)
      (rel : Bool) (s2 : AggState) (tc2 : ℚ) (tm2 : ℕ) (rel2 : Bool)
      (n0 : ProcessInfo) (acc : List ChildInfo),
      aggChildren (aggStep cm fuel) cm p l s tc tm rel =
        some (s2, tc2, tm2, rel2) →
      (∀ c ∈ l, rank c < rank p) → (∀ q ∈ E, rank p < rank q) →
      GoodE procs0 (p :: E) s → s.aggDone p = false → procs0 p = some n0 →
      s.procs p = some (pendingNode n0 acc) →
      tc = n0.CPUPercent + (acc.map (·.CPUPercent)).sum →
      tm = (acc.map (·.MemoryBytes)).foldl addU64 n0.MemoryBytes →
      rel = !acc.isEmpty →
      ∃ acc2 : List ChildInfo,
        s2.aggDone p = false ∧
        s2.procs p = some (pendingNode n0 (acc ++ acc2)) ∧
        GoodE procs0 (p :: E) s2 ∧
        tc2 = n0.CPUPercent + ((acc ++ acc2).map (·.CPUPercent)).sum ∧
        tm2 = ((acc ++ acc2).map (·.MemoryBytes)).foldl addU64 n0.MemoryBytes ∧
        rel2 = !(acc ++ acc2).isEmpty ∧
        (∀ q, s.aggDone q = true →
          s2.aggDone q = true ∧ s2.procs q = s.procs q) ∧
        (∀ q, q ≠ p → s2.aggDone q = false →
          s2.procs q = s.procs q ∧ s.aggDone q = false) ∧
        (∀ q, s2.aggDone q = true → s.aggDone q = true ∨ rank q < rank p) ∧
        (∀ q, (s2.procs q).isSome → (s.procs q).isSome) ∧
        (isSystemParent n0.Name = true → acc2 = []) := by
  intro l
  induction l with
  | nil =>
    intro p E s tc tm rel s2 tc2 tm2 rel2 n0 acc h hl hE hG hdone h0 hpart
      htc htm hrel
    simp only [aggChildren, Option.some_inj, Prod.mk.injEq] at h
    obtain ⟨hs, htc', htm', hrel'⟩ := h
    subst hs htc' htm' hrel'
    refine ⟨[], hdone, by simpa using hpart, hG, by simpa using htc,
      by simpa using htm, by simpa using hrel, fun q hq => ⟨hq, rfl⟩,
      fun q _ hq => ⟨rfl, hq⟩, fun q hq => Or.inl hq, fun q hq => hq,
      fun _ => rfl⟩
  | cons c rest IHl =>
    intro p E s tc tm rel s2 tc2 tm2 rel2 n0 acc h hl hE hG hdone h0 hpart
      htc htm hrel
    rw [aggChildren] at h
    cases hc : aggStep cm fuel c s with
    | none => simp only [hc] at h; cases h
    | some s1 =>
      simp only [hc] at h
      have hcp : rank c < rank p := hl c (List.mem_cons_self c rest)
      have hlr : ∀ c' ∈ rest, rank c' < rank p := fun c' h' =>
        hl c' (List.mem_cons_of_mem _ h')
      have hErk : ∀ q ∈ p :: E, rank c < rank q := by
        intro q hq
        rcases List.mem_cons.mp hq with hq | hq
        · exact hq ▸ hcp
        · exact lt_trans hcp (hE q hq)
      obtain ⟨hA1, hA2, hA3, hA4, hA5, hA6⟩ := ih (p :: E) c s s1 hc hG hErk
      have hdone1 : s1.aggDone p = false := by
        cases hd : s1.aggDone p with
        | false => rfl
        | true =>
          rcases hA4 p hd with hcontra | hcontra
          · rw [hdone] at hcontra; cases hcontra
          · exact absurd hcp (not_lt_of_le hcontra)
      have hpart1 : s1.procs p = some (pendingNode n0 acc) := by
        rw [(hA3 p hdone1).1, hpart]
      cases hc1 : s1.procs c with
      | none =>
        simp only [hc1] at h
        obtain ⟨acc2, g1, g2, g3, g4, g5, g6, g7, g8, g9, g10, g11⟩ :=
          IHl p E s1 tc tm rel s2 tc2 tm2 rel2 n0 acc h hlr hE hA1 hdone1
            h0 hpart1 htc htm hrel
        refine ⟨acc2, g1, g2, g3, g4, g5, g6, ?_, ?_, ?_, ?_, g11⟩
        · intro q hq
          obtain ⟨hq1, hq2⟩ := hA2 q hq
          obtain ⟨hq3, hq4⟩ := g7 q hq1
          exact ⟨hq3, hq4.trans hq2⟩
        · intro q hqp hq
          obtain ⟨hq1, hq2⟩ := g8 q hqp hq
          obtain ⟨hq3, hq4⟩ := hA3 q hq2
          exact ⟨hq1.trans hq3, hq4⟩
        · intro q hq
          rcases g9 q hq with hq' | hq'
          · rcases hA4 q hq' with hq'' | hq''
            · exact Or.inl hq''
            · exact Or.inr (lt_of_le_of_lt hq'' hcp)
          · exact Or.inr hq'
        · intro q hq
          exact hA6 q (g10 q hq)
      | some childInfo =>
        simp only [hc1] at h
        rw [show (s1.procs p).getD default = pendingNode n0 acc by
          rw [hpart1]; rfl] at h
        cases hrelated : isRelatedToParent childInfo (pendingNode n0 acc) with
        | false =>
          simp only [hrelated, Bool.false_eq_true, if_false] at h
          obtain ⟨acc2, g1, g2, g3, g4, g5, g6, g7, g8, g9, g10, g11⟩ :=
            IHl p E s1 tc tm rel s2 tc2 tm2 rel2 n0 acc h hlr hE hA1 hdone1
              h0 hpart1 htc htm hrel
          refine ⟨acc2, g1, g2, g3, g4, g5, g6, ?_, ?_, ?_, ?_, g11⟩
          · intro q hq
            obtain ⟨hq1, hq2⟩ := hA2 q hq
            obtain ⟨hq3, hq4⟩ := g7 q hq1
            exact ⟨hq3, hq4.trans hq2⟩
          · intro q hqp hq
            obtain ⟨hq1, hq2⟩ := g8 q hqp hq
            obtain ⟨hq3, hq4⟩ := hA3 q hq2
            exact ⟨hq1.trans hq3, hq4⟩
          · intro q hq
            rcases g9 q hq with hq' | hq'
            · rcases hA4 q hq' with hq'' | hq''
              · exact Or.inl hq''
              · exact Or.inr (lt_of_le_of_lt hq'' hcp)
            · exact Or.inr hq'
          · intro q hq
            exact hA6 q (g10 q hq)
        | true =>
          simp only [hrelated, if_true] at h
          rw [pendingNode_snoc] at h
          set entry : ChildInfo :=
            ⟨childInfo.PID, childInfo.Name, childInfo.CPUPercent,
              childInfo.MemoryBytes, isThread childInfo (pendingNode n0 acc)⟩
            with hentry
          have hGnew : GoodE procs0 (p :: E)
              (setProc s1 p (pendingNode n0 (acc ++ [entry]))) := by
            constructor
            · intro q hq hq'
              have hqp : q ≠ p := fun hqq => hq (hqq ▸ List.mem_cons_self p E)
              rw [setProc_procs_ne _ _ _ _ hqp]
              exact hA1.1 q hq hq'
            · intro q n hq hq'
              have hqp : q ≠ p := by
                intro hqq
                rw [hqq] at hq
                rw [show (setProc s1 p (pendingNode n0 (acc ++ [entry]))).aggDone
                  = s1.aggDone from rfl] at hq
                rw [hdone1] at hq; cases hq
              rw [setProc_procs_ne _ _ _ _ hqp] at hq'
              exact hA1.2 q n hq hq'
          have hdoneNew :
              (setProc s1 p (pendingNode n0 (acc ++ [entry]))).aggDone p =
                false := hdone1
          have hpartNew :
              (setProc s1 p (pendingNode n0 (acc ++ [entry]))).procs p =
                some (pendingNode n0 (acc ++ [entry])) :=
            setProc_procs_self _ _ _
          have htcNew : tc + childInfo.CPUPercent =
              n0.CPUPercent + ((acc ++ [entry]).map (·.CPUPercent)).sum := by
            rw [htc]
            simp [List.map_append, List.sum_append, hentry]
            ring
          have htmNew : addU64 tm childInfo.MemoryBytes =
              ((acc ++ [entry]).map (·.MemoryBytes)).foldl addU64
                n0.MemoryBytes := by
            rw [htm]
            simp [List.map_append, List.foldl_append, hentry]
          have hrelNew : true = !(acc ++ [entry]).isEmpty := by simp
          obtain ⟨acc2, g1, g2, g3, g4, g5, g6, g7, g8, g9, g10, g11⟩ :=
            IHl p E (setProc s1 p (pendingNode n0 (acc ++ [entry])))
              (tc + childInfo.CPUPercent) (addU64 tm childInfo.MemoryBytes)
              true s2 tc2 tm2 rel2 n0 (acc ++ [entry]) h hlr hE hGnew
              hdoneNew h0 hpartNew htcNew htmNew hrelNew
          refine ⟨[entry] ++ acc2, g1, ?_, g3, ?_, ?_, ?_, ?_, ?_, ?_, ?_, ?_⟩
          · rw [← List.append_assoc]; exact g2
          · rw [← List.append_assoc]; exact g4
          · rw [← List.append_assoc]; exact g5
          · rw [← List.append_assoc]; exact g6
          · intro q hq
            obtain ⟨hq1, hq2⟩ := hA2 q hq
            have hqp : q ≠ p := by
              intro hqq; rw [hqq, hdone] at hq; cases hq
            have hq1' : (setProc s1 p
                (pendingNode n0 (acc ++ [entry]))).aggDone q = true := hq1
            obtain ⟨hq3, hq4⟩ := g7 q hq1'
            rw [setProc_procs_ne _ _ _ _ hqp] at hq4
            exact ⟨hq3, hq4.trans hq2⟩
          · intro q hqp hq
            obtain ⟨hq1, hq2⟩ := g8 q hqp hq
            rw [setProc_procs_ne _ _ _ _ hqp] at hq1
            obtain ⟨hq3, hq4⟩ := hA3 q hq2
            exact ⟨hq1.trans hq3, hq4⟩
          · intro q hq
            rcases g9 q hq with hq' | hq'
            · rcases hA4 q hq' with hq'' | hq''
              · exact Or.inl hq''
              · exact Or.inr (lt_of_le_of_lt hq'' hcp)
            · exact Or.inr hq'
          · intro q hq
            have hq1 := g10 q hq
            by_cases hqp : q = p
            · subst hqp
              rw [hpart]; rfl
            · rw [setProc_procs_ne _ _ _ _ hqp] at hq1
              exact hA6 q hq1
          · intro hsys
            have : isRelatedToParent childInfo (pendingNode n0 acc) = false := by
              unfold isRelatedToParent
              rw [show isSystemParent (pendingNode n0 acc).Name = true from hsys]
              rfl
            rw [this] at hrelated
            cases hrelated

end Monitor

namespace Monitor

/-- Main invariant of `aggregateResources`: any completing call
preserves `GoodE` and delivers the `StepOut` guarantees, provided the
children map descends along a rank function and initial records carry
no child entries. -/
theorem aggStep_inv (cm : ℕ → List ℕ) (rank : ℕ → ℕ)
    (procs0 : ℕ → Option ProcessInfo) (hRank : RankOK cm rank)
    (hInit : InitOK procs0) :
    ∀ (fuel : ℕ) (E : List ℕ) (p : ℕ) (s s' : AggState),
      aggStep cm fuel p s = some s' → GoodE procs0 E s →
      (∀ q ∈ E, rank p < rank q) → StepOut procs0 rank E p s s' := by
  intro fuel
  induction fuel with
  | zero => intro E p s s' h _ _; cases h
  | succ fuel ih =>
    intro E p s s' h hG hE
    have hpE : p ∉ E := fun hp => absurd (hE p hp) (lt_irrefl _)
    rw [show aggStep cm (fuel + 1) p s = aggStepBody (aggStep cm fuel) cm p s
      from rfl] at h
    unfold aggStepBody at h
    cases hdone : s.aggDone p with
    | true =>
      simp only [hdone, if_true] at h
      obtain rfl := Option.some_inj.mp h
      exact ⟨hG, fun q hq => ⟨hq, rfl⟩, fun q hq => ⟨rfl, hq⟩,
        fun q hq => Or.inl hq, fun _ => hdone, fun _ hq => hq⟩
    | false =>
      simp only [hdone, Bool.false_eq_true, if_false] at h
      cases hex : s.procs p with
      | none =>
        simp only [hex] at h
        obtain rfl := Option.some_inj.mp h
        refine ⟨hG, fun q hq => ⟨hq, rfl⟩, fun q hq => ⟨rfl, hq⟩,
          fun q hq => Or.inl hq, fun hs => ?_, fun _ hq => hq⟩
        rw [hex] at hs; cases hs
      | some info =>
        simp only [hex] at h
        have h0 : procs0 p = some info := by
          rw [← hG.1 p hpE hdone]; exact hex
        have hch : info.Children = [] := hInit p info h0
        cases hcm : cm p with
        | nil =>
          simp only [hcm] at h
          obtain rfl := Option.some_inj.mp h
          have hmself : ∀ n : ProcessInfo,
              (markDone (setProc s p n) p).procs p = some n :=
            fun n => setProc_procs_self s p n
          refine ⟨⟨?_, ?_⟩, ?_, ?_, ?_, fun _ => markDone_aggDone_self _ _, ?_⟩
          · intro q hq hq'
            have hqp : q ≠ p := by
              intro hqq; rw [hqq, markDone_aggDone_self] at hq'; cases hq'
            rw [markDone_aggDone_ne _ _ _ hqp] at hq'
            rw [markDone_procs, setProc_procs_ne _ _ _ _ hqp]
            exact hG.1 q hq hq'
          · intro q n hq hq'
            by_cases hqp : q = p
            · subst hqp
              rw [hmself] at hq'
              obtain rfl := Option.some_inj.mp hq'
              refine ⟨fun hne => absurd hch hne, fun n0 h0' => ?_⟩
              rw [h0] at h0'
              obtain rfl := Option.some_inj.mp h0'
              exact ⟨rfl, rfl, rfl, fun _ => ⟨rfl, rfl, rfl⟩⟩
            · rw [markDone_aggDone_ne _ _ _ hqp] at hq
              rw [markDone_procs, setProc_procs_ne _ _ _ _ hqp] at hq'
              exact hG.2 q n hq hq'
          · intro q hq
            have hqp : q ≠ p := by
              intro hqq; rw [hqq, hdone] at hq; cases hq
            rw [markDone_aggDone_ne _ _ _ hqp,
              markDone_procs, setProc_procs_ne _ _ _ _ hqp]
            exact ⟨hq, rfl⟩
          · intro q hq
            have hqp : q ≠ p := by
              intro hqq; rw [hqq, markDone_aggDone_self] at hq; cases hq
            rw [markDone_aggDone_ne _ _ _ hqp] at hq
            rw [markDone_procs, setProc_procs_ne _ _ _ _ hqp]
            exact ⟨rfl, hq⟩
          · intro q hq
            by_cases hqp : q = p
            · exact Or.inr (hqp ▸ le_refl _)
            · rw [markDone_aggDone_ne _ _ _ hqp] at hq
              exact Or.inl hq
          · intro q hq
            by_cases hqp : q = p
            · subst hqp; rw [hex]; rfl
            · rw [markDone_procs, setProc_procs_ne _ _ _ _ hqp] at hq
              exact hq
        | cons c cs =>
          simp only [hcm] at h
          cases hB : aggChildren (aggStep cm fuel) cm p (c :: cs)
              (setProc s p { info with
                ParentCPU := info.CPUPercent
                ParentMemory := info.MemoryBytes })
              info.CPUPercent info.MemoryBytes false with
          | none => simp only [hB] at h; cases h
          | some out =>
            obtain ⟨s2, tc2, tm2, rel2⟩ := out
            simp only [hB] at h
            have hGs1 : GoodE procs0 (p :: E)
                (setProc s p { info with
                  ParentCPU := info.CPUPercent
                  ParentMemory := info.MemoryBytes }) := by
              constructor
              · intro q hq hq'
                have hqp : q ≠ p := fun hqq =>
                  hq (hqq ▸ List.mem_cons_self p E)
                rw [setProc_procs_ne _ _ _ _ hqp]
                exact hG.1 q (fun hqE => hq (List.mem_cons_of_mem _ hqE)) hq'
              · intro q n hq hq'
                have hqp : q ≠ p := by
                  intro hqq; rw [hqq] at hq
                  rw [show (setProc s p _).aggDone = s.aggDone from rfl,
                    hdone] at hq
                  cases hq
                rw [setProc_procs_ne _ _ _ _ hqp] at hq'
                exact hG.2 q n hq hq'
            have hpart0 : (setProc s p { info with
                ParentCPU := info.CPUPercent
                ParentMemory := info.MemoryBytes }).procs p =
                some (pendingNode info []) := by
              rw [setProc_procs_self, pendingNode_nil]
            obtain ⟨acc2, g1, g2, g3, g4, g5, g6, g7, g8, g9, g10, g11⟩ :=
              aggChildren_inv cm rank procs0 fuel ih (c :: cs) p E _
                info.CPUPercent info.MemoryBytes false s2 tc2 tm2 rel2 info []
                hB (fun c' h' => hRank p c' (hcm ▸ h')) hE hGs1 hdone h0
                hpart0 (by simp) rfl rfl
            rw [List.nil_append] at g2 g4 g5 g6
            have hcur : (s2.procs p).getD { info with
                ParentCPU := info.CPUPercent
                ParentMemory := info.MemoryBytes } = pendingNode info acc2 := by
              rw [g2]; rfl
            rw [hcur] at h
            have hfinInv : ∀ fin : ProcessInfo,
                nodeInv procs0 p fin →
                StepOut procs0 rank E p s (markDone (setProc s2 p fin) p) := by
              intro fin hninv
              refine ⟨⟨?_, ?_⟩, ?_, ?_, ?_, fun _ => markDone_aggDone_self _ _, ?_⟩
              · intro q hq hq'
                have hqp : q ≠ p := by
                  intro hqq; rw [hqq, markDone_aggDone_self] at hq'; cases hq'
                rw [markDone_aggDone_ne _ _ _ hqp] at hq'
                rw [markDone_procs, setProc_procs_ne _ _ _ _ hqp]
                obtain ⟨hu1, hu2⟩ := g8 q hqp hq'
                rw [hu1, setProc_procs_ne _ _ _ _ hqp]
                exact hG.1 q (fun hqE => hq hqE) hu2
              · intro q n hq hq'
                by_cases hqp : q = p
                · subst hqp
                  rw [markDone_procs, setProc_procs_self] at hq'
                  obtain rfl := Option.some_inj.mp hq'
                  exact hninv
                · rw [markDone_aggDone_ne _ _ _ hqp] at hq
                  rw [markDone_procs, setProc_procs_ne _ _ _ _ hqp] at hq'
                  exact g3.2 q n hq hq'
              · intro q hq
                have hqp : q ≠ p := by
                  intro hqq; rw [hqq, hdone] at hq; cases hq
                obtain ⟨hv1, hv2⟩ := g7 q hq
                rw [markDone_aggDone_ne _ _ _ hqp,
                  markDone_procs, setProc_procs_ne _ _ _ _ hqp, hv2,
                  setProc_procs_ne _ _ _ _ hqp]
                exact ⟨hv1, rfl⟩
              · intro q hq
                have hqp : q ≠ p := by
                  intro hqq; rw [hqq, markDone_aggDone_self] at hq; cases hq
                rw [markDone_aggDone_ne _ _ _ hqp] at hq
                rw [markDone_procs, setProc_procs_ne _ _ _ _ hqp]
                obtain ⟨hu1, hu2⟩ := g8 q hqp hq
                rw [hu1, setProc_procs_ne _ _ _ _ hqp]
                exact ⟨rfl, hu2⟩
              · intro q hq
                by_cases hqp : q = p
                · exact Or.inr (hqp ▸ le_refl _)
                · rw [markDone_aggDone_ne _ _ _ hqp] at hq
                  rcases g9 q hq with hq' | hq'
                  · exact Or.inl hq'
                  · exact Or.inr (le_of_lt hq')
              · intro q hq
                by_cases hqp : q = p
                · subst hqp; rw [hex]; rfl
                · rw [markDone_procs, setProc_procs_ne _ _ _ _ hqp] at hq
                  have := g10 q hq
                  rw [setProc_procs_ne _ _ _ _ hqp] at this
                  exact this
            cases acc2 with
            | nil =>
              have hrel2 : rel2 = false := by simpa using g6
              rw [hrel2] at h
              simp only [Bool.false_eq_true, if_false] at h
              obtain rfl := Option.some_inj.mp h
              apply hfinInv
              refine ⟨fun hne => ?_, fun n0 h0' => ?_⟩
              · exact absurd (by simp [pendingNode, hch]) hne
              · rw [h0] at h0'
                obtain rfl := Option.some_inj.mp h0'
                refine ⟨rfl, rfl, rfl, fun _ => ⟨rfl, rfl, ?_⟩⟩
                simp [pendingNode]
            | cons e es =>
              have hrel2 : rel2 = true := by rw [g6]; rfl
              rw [hrel2] at h
              simp only [if_true] at h
              obtain rfl := Option.some_inj.mp h
              apply hfinInv
              refine ⟨fun _ => ?_, fun n0 h0' => ?_⟩
              · constructor
                · show tc2 = info.CPUPercent +
                    (((pendingNode info (e :: es)).Children).map
                      (·.CPUPercent)).sum
                  rw [g4]
                  simp [pendingNode, hch]
                · show tm2 = (info.MemoryBytes +
                    (((pendingNode info (e :: es)).Children).map
                      (·.MemoryBytes)).sum) % U64
                  rw [g5]
                  rw [show ((e :: es).map (·.MemoryBytes)) =
                    e.MemoryBytes :: es.map (·.MemoryBytes) from rfl]
                  rw [foldl_addU64_cons]
                  simp [pendingNode, hch]
              · rw [h0] at h0'
                obtain rfl := Option.some_inj.mp h0'
                exact ⟨rfl, rfl, rfl, fun hsys => absurd (g11 hsys) (by simp)⟩
  
end Monitor

namespace Monitor

/-- The driver pass preserves the invariant and creates no entries. -/
theorem aggregateAll_inv (cm : ℕ → List ℕ) (rank : ℕ → ℕ)
    (procs0 : ℕ → Option ProcessInfo) (hRank : RankOK cm rank)
    (hInit : InitOK procs0) (fuel : ℕ) :
    ∀ (pids : List ℕ) (s s' : AggState),
      aggregateAll cm fuel pids s = some s' → GoodE procs0 [] s →
      GoodE procs0 [] s' ∧
        ∀ q, (s'.procs q).isSome → (s.procs q).isSome := by
  intro pids
  induction pids with
  | nil =>
    intro s s' h hG
    rw [aggregateAll] at h
    obtain rfl := Option.some_inj.mp h
    exact ⟨hG, fun _ hq => hq⟩
  | cons p rest ihp =>
    intro s s' h hG
    rw [aggregateAll] at h
    cases hc : aggStep cm fuel p s with
    | none => simp only [hc] at h; cases h
    | some s1 =>
      simp only [hc] at h
      obtain ⟨hG1, _, _, _, _, hdom⟩ :=
        aggStep_inv cm rank procs0 hRank hInit fuel [] p s s1 hc hG
          (fun q hq => absurd hq (List.not_mem_nil q))
      obtain ⟨hG2, hdom2⟩ := ihp s1 s' h hG1
      exact ⟨hG2, fun q hq => hdom q (hdom2 q hq)⟩

/-- A hit in the first-pass map is a sample carrying the looked-up
PID (Go maps keep the last insertion; the fold mirrors that). -/
theorem buildProcs_spec (samples : List ProcessInfo) (q : ℕ) :
    ∀ n, buildProcs samples q = some n → n ∈ samples ∧ n.PID = q := by
  suffices hgen : ∀ (l : List ProcessInfo) (acc : Option ProcessInfo) n,
      l.foldl (fun acc i => if i.PID = q then some i else acc) acc = some n →
      acc = some n ∨ (n ∈ l ∧ n.PID = q) by
    intro n hn
    rcases hgen samples none n hn with hacc | h
    · cases hacc
    · exact h
  intro l
  induction l with
  | nil => intro acc n hn; exact Or.inl hn
  | cons i t ih =>
    intro acc n hn
    rw [List.foldl_cons] at hn
    rcases ih _ n hn with hacc | h
    · by_cases hi : i.PID = q
      · rw [if_pos hi] at hacc
        obtain rfl := Option.some_inj.mp hacc
        exact Or.inr ⟨List.mem_cons_self i t, hi⟩
      · rw [if_neg hi] at hacc
        exact Or.inl hacc
    · exact Or.inr ⟨List.mem_cons_of_mem i h.1, h.2⟩

/-- Every collected sample starts with an empty child list. -/
theorem collectSamples_children (raws : List RawProcess) :
    ∀ i ∈ collectSamples raws, i.Children = [] := by
  intro i hi
  obtain ⟨r, _, hr⟩ := List.mem_filterMap.mp hi
  unfold getProcessInfo at hr
  cases hn : r.nameRes with
  | none => rw [hn] at hr; cases hr
  | some name =>
    cases hm : r.memRes with
    | none => rw [hn, hm] at hr; cases hr
    | some mem =>
      rw [hn, hm] at hr
      obtain rfl := Option.some_inj.mp hr
      rfl

/-- The PPID-rank hypothesis on samples transfers to the children map. -/
theorem childrenMapOf_rank (samples : List ProcessInfo) (rank : ℕ → ℕ)
    (hrank : ∀ i ∈ samples, i.PPID ≠ 0 → rank i.PID < rank i.PPID) :
    RankOK (childrenMapOf samples) rank := by
  intro p c hc
  obtain ⟨i, ⟨hi, hz, hp⟩, hpid⟩ := by
    simpa only [childrenMapOf, List.mem_map, List.mem_filter,
      Bool.and_eq_true, decide_eq_true_eq] using hc
  subst hpid
  exact hp ▸ hrank i hi hz

end Monitor

section ConservationClaim

open Monitor

/-- Claim C1 (amended for the `uint64` wrap): on any snapshot whose
parent links descend along some rank (equivalently, on which the
aggregation pass completes — cyclic links make it diverge, claim C2)
and whose samples start without child entries, every node of the final
state with recorded related children satisfies conservation: its CPU
is exactly its original CPU plus the sum of the recorded child
entries' CPUs, and its memory is that sum taken modulo `2 ^ 64` — with
exact equality whenever the untruncated sum stays below `2 ^ 64`.
This holds at every depth because every map entry is so constrained,
and each recorded `ChildInfo` carries the child's own aggregated
totals. -/
theorem conservation (samples : List ProcessInfo) (rank : ℕ → ℕ)
    (fuel : ℕ) (st : AggState)
    (hrank : ∀ i ∈ samples, i.PPID ≠ 0 → rank i.PID < rank i.PPID)
    (hinit : ∀ i ∈ samples, i.Children = [])
    (hrun : runAggregation fuel samples = some st) :
    ∀ pid n, st.procs pid = some n → n.Children ≠ [] →
      n.CPUPercent = n.ParentCPU + (n.Children.map (·.CPUPercent)).sum ∧
      n.MemoryBytes =
        (n.ParentMemory + (n.Children.map (·.MemoryBytes)).sum) % U64 ∧
      (n.ParentMemory + (n.Children.map (·.MemoryBytes)).sum < U64 →
        n.MemoryBytes =
          n.ParentMemory + (n.Children.map (·.MemoryBytes)).sum) := by
  have hRank := childrenMapOf_rank samples rank hrank
  have hInit : InitOK (buildProcs samples) := fun q n h =>
    hinit n (buildProcs_spec samples q n h).1
  have hG0 : GoodE (buildProcs samples) [] (initState samples) :=
    ⟨fun _ _ _ => rfl, fun q n h => by cases h⟩
  obtain ⟨hGf, _⟩ := aggregateAll_inv (childrenMapOf samples) rank
    (buildProcs samples) hRank hInit fuel (pidKeys samples)
    (initState samples) st hrun hG0
  intro pid n hn hne
  cases hdone : st.aggDone pid with
  | false =>
    rw [hGf.1 pid (List.not_mem_nil pid) hdone] at hn
    exact absurd (hinit n (buildProcs_spec samples pid n hn).1) hne
  | true =>
    obtain ⟨h1, h2⟩ := (hGf.2 pid n hdone hn).1 hne
    exact ⟨h1, h2, fun hlt => h2.trans (Nat.mod_eq_of_lt hlt)⟩

/-- Snapshot for the conservation witness: a chrome parent with a
related chrome-prefixed child. -/
def c1S : List ProcessInfo :=
  [⟨1, 0, "chrome", 3, 100, 0, [], false, 0, 0⟩,
    ⟨2, 1, "chromegpu", 2, 50, 0, [], false, 0, 0⟩]

/-- Rank function witnessing the acyclicity of `c1S`. -/
def c1Rank : ℕ → ℕ := fun q => if q = 1 then 1 else 0

/-- Final aggregation state of the conservation witness run. -/
def c1State : AggState := (runAggregation 2 c1S).get (by decide)

/-- Witness for the amended C1 at a concrete two-process snapshot. -/
theorem conservation_witness :
    (∀ i ∈ c1S, i.PPID ≠ 0 → c1Rank i.PID < c1Rank i.PPID) ∧
      (∀ i ∈ c1S, i.Children = []) ∧
      runAggregation 2 c1S = some c1State ∧
      ∀ pid n, c1State.procs pid = some n → n.Children ≠ [] →
        n.CPUPercent = n.ParentCPU + (n.Children.map (·.CPUPercent)).sum ∧
        n.MemoryBytes =
          (n.ParentMemory + (n.Children.map (·.MemoryBytes)).sum) % U64 ∧
        (n.ParentMemory + (n.Children.map (·.MemoryBytes)).sum < U64 →
          n.MemoryBytes =
            n.ParentMemory + (n.Children.map (·.MemoryBytes)).sum) :=
  ⟨by decide, by decide, (Option.some_get _).symm,
    conservation c1S c1Rank 2 c1State (by decide) (by decide)
      (Option.some_get _).symm⟩

end ConservationClaim

section SystemRootClaim

open Monitor

/-- Claim C4: a system-init-named parent (`systemd`, `init`,
`launchd`) never absorbs a child — `isRelatedToParent` is false for it
regardless of the child — and any system-init-named row returned by
`GetFilteredProcesses` carries no child entries, keeps exactly its own
sample's CPU and memory, and therefore appears only because it
qualifies standalone. -/
theorem system_root_exclusion :
    (∀ c p : ProcessInfo, isSystemParent p.Name = true →
      isRelatedToParent c p = false) ∧
      ∀ (fuel : ℕ) (cfg : MonitorConfig) (raws : List RawProcess)
        (rank : ℕ → ℕ) (res : List ProcessInfo),
        (∀ i ∈ collectSamples raws, i.PPID ≠ 0 →
          rank i.PID < rank i.PPID) →
        getFilteredProcesses fuel cfg (.ok raws) = .ok (some res) →
        ∀ r ∈ res, isSystemParent r.Name = true →
          ∃ n0, buildProcs (collectSamples raws) r.PID = some n0 ∧
            r.Children = [] ∧ r.CPUPercent = n0.CPUPercent ∧
            r.MemoryBytes = n0.MemoryBytes ∧ qualP cfg n0 = true := by
  constructor
  · intro c p h
    unfold isRelatedToParent
    rw [h]
    rfl
  · intro fuel cfg raws rank res hrank hrun r hr hsys
    have hcore : getFilteredCore fuel cfg (collectSamples raws) =
        some res := by
      simpa [getFilteredProcesses] using hrun
    unfold getFilteredCore at hcore
    obtain ⟨nodes, hagg, hres⟩ := Option.map_eq_some'.mp hcore
    subst hres
    have hr1 : r ∈ topLevelOf cfg nodes :=
      (List.Perm.mem_iff (List.perm_insertionSort _ _)).mp hr
    have hr2 : r ∈ qualifyingOf cfg nodes := List.mem_of_mem_filter hr1
    have hq : qualP cfg r = true := List.of_mem_filter hr2
    have hr3 : r ∈ nodes := List.mem_of_mem_filter hr2
    unfold aggNodes at hagg
    obtain ⟨st, hrun', hnodes⟩ := Option.map_eq_some'.mp hagg
    subst hnodes
    obtain ⟨pid, hpidmem, hpidproc⟩ := List.mem_filterMap.mp hr3
    have hRank := childrenMapOf_rank (collectSamples raws) rank hrank
    have hInit : InitOK (buildProcs (collectSamples raws)) := fun q n h =>
      collectSamples_children raws n
        (buildProcs_spec (collectSamples raws) q n h).1
    have hG0 : GoodE (buildProcs (collectSamples raws)) []
        (initState (collectSamples raws)) :=
      ⟨fun _ _ _ => rfl, fun q n h => by cases h⟩
    obtain ⟨hGf, hdom⟩ := aggregateAll_inv (childrenMapOf (collectSamples raws))
      rank (buildProcs (collectSamples raws)) hRank hInit fuel
      (pidKeys (collectSamples raws)) (initState (collectSamples raws)) st
      hrun' hG0
    cases hdone : st.aggDone pid with
    | false =>
      rw [hGf.1 pid (List.not_mem_nil pid) hdone] at hpidproc
      have hid := buildProcs_spec (collectSamples raws) pid r hpidproc
      refine ⟨r, ?_, collectSamples_children raws r hid.1, rfl, rfl, hq⟩
      rw [hid.2]
      exact hpidproc
    | true =>
      have hinv := (hGf.2 pid r hdone hpidproc).2
      have hsome : (buildProcs (collectSamples raws) pid).isSome := by
        have : (st.procs pid).isSome := by rw [hpidproc]; rfl
        exact hdom pid this
      obtain ⟨n0, hn0⟩ := Option.isSome_iff_exists.mp hsome
      obtain ⟨hPID, _, hName, hkeep⟩ := hinv n0 hn0
      obtain ⟨hcpu, hmem, hchild⟩ := hkeep (by rw [← hName]; exact hsys)
      have hid := buildProcs_spec (collectSamples raws) pid n0 hn0
      refine ⟨n0, ?_, ?_, hcpu, hmem, ?_⟩
      · rw [hPID, hid.2]
        exact hn0
      · rw [hchild]
        exact collectSamples_children raws n0 hid.1
      · unfold qualP at hq ⊢
        rw [← hcpu, ← hmem]
        exact hq

/-- Raw scan for the system-root witness: a qualifying `systemd`
parent with two `systemd`-named children that would match by name. -/
def c4Raws : List RawProcess :=
  [⟨1, some "systemd", some 0, some 20, some 0⟩,
    ⟨2, some "systemd", some 1, some 30, some 0⟩,
    ⟨3, some "systemd", some 1, some 6, some 0⟩]

/-- Thresholds for the system-root witness. -/
def c4Cfg : MonitorConfig := ⟨5, 10 ^ 15⟩

/-- Rank function witnessing the acyclicity of the scan. -/
def c4Rank : ℕ → ℕ := fun q => if q = 1 then 1 else 0

/-- Result rows of the system-root witness run. -/
def c4Res : List ProcessInfo :=
  (getFilteredCore 2 c4Cfg (collectSamples c4Raws)).getD []

/-- Witness for C4: the concrete init-named parent qualifies
standalone and is returned bare, its same-named children unabsorbed. -/
theorem system_root_exclusion_witness :
    (∀ i ∈ collectSamples c4Raws, i.PPID ≠ 0 →
      c4Rank i.PID < c4Rank i.PPID) ∧
      getFilteredProcesses 2 c4Cfg (.ok c4Raws) = .ok (some c4Res) ∧
      ∀ r ∈ c4Res, isSystemParent r.Name = true →
        ∃ n0, buildProcs (collectSamples c4Raws) r.PID = some n0 ∧
          r.Children = [] ∧ r.CPUPercent = n0.CPUPercent ∧
          r.MemoryBytes = n0.MemoryBytes ∧ qualP c4Cfg n0 = true :=
  ⟨by decide, congrArg Except.ok (by decide),
    system_root_exclusion.2 2 c4Cfg c4Raws c4Rank c4Res (by decide)
      (congrArg Except.ok (by decide))⟩

end SystemRootClaim

section TopLevelClaim

open Monitor

/-- Claim C3 (amended): every returned row is a qualifying node whose
parent PID is not a qualifying PID — so the returned sequence never
contains a process together with its immediate parent.  (Both a
process and a farther ancestor can appear, see the counterexample.) -/
theorem no_double_counting_amended (fuel : ℕ) (cfg : MonitorConfig)
    (samples res : List ProcessInfo)
    (h : getFilteredCore fuel cfg samples = some res) :
    ∃ nodes, aggNodes fuel samples = some nodes ∧
      res = sortCPUDesc (topLevelOf cfg nodes) ∧
      (∀ r ∈ res, qualP cfg r = true ∧
        r.PPID ∉ (qualifyingOf cfg nodes).map (·.PID)) ∧
      ∀ r ∈ res, ∀ r' ∈ res, r.PPID ≠ r'.PID := by
  unfold getFilteredCore at h
  obtain ⟨nodes, hagg, hres⟩ := Option.map_eq_some'.mp h
  have hmemtop : ∀ r ∈ res, r ∈ topLevelOf cfg nodes := by
    intro r hr
    rw [← hres] at hr
    exact (List.Perm.mem_iff (List.perm_insertionSort _ _)).mp hr
  refine ⟨nodes, hagg, hres.symm, ?_, ?_⟩
  · intro r hr
    have hr1 := hmemtop r hr
    refine ⟨List.of_mem_filter (List.mem_of_mem_filter hr1), ?_⟩
    simpa using List.of_mem_filter hr1
  · intro r hr r' hr'
    have h1 : r.PPID ∉ (qualifyingOf cfg nodes).map (·.PID) := by
      simpa using List.of_mem_filter (hmemtop r hr)
    have h2 : r' ∈ qualifyingOf cfg nodes :=
      List.mem_of_mem_filter (hmemtop r' hr')
    intro heq
    exact h1 (heq ▸ List.mem_map_of_mem (·.PID) h2)

/-- Witness for the amended C3 on the chain snapshot. -/
theorem no_double_counting_amended_witness :
    getFilteredCore 3 c3Cfg c3S = some c3Res ∧
      ∃ nodes, aggNodes 3 c3S = some nodes ∧
        c3Res = sortCPUDesc (topLevelOf c3Cfg nodes) ∧
        (∀ r ∈ c3Res, qualP c3Cfg r = true ∧
          r.PPID ∉ (qualifyingOf c3Cfg nodes).map (·.PID)) ∧
        ∀ r ∈ c3Res, ∀ r' ∈ c3Res, r.PPID ≠ r'.PID :=
  ⟨by decide, no_double_counting_amended 3 c3Cfg c3S c3Res (by decide)⟩

end TopLevelClaim

namespace Monitor

/-- The in-place effect of a completed leaf visit. -/
def leafFix (n : ProcessInfo) : ProcessInfo :=
  { n with MemoryMB := memMB n.MemoryBytes }

/-- On a snapshot without parent links every process is a leaf: the
driver pass completes in one fuel level and only sets each visited
node's MB mirror. -/
theorem aggregateAll_leaf (cm : ℕ → List ℕ) (hcm : ∀ q, cm q = [])
    (fuel : ℕ) :
    ∀ (pids : List ℕ) (s : AggState), ∃ s',
      aggregateAll cm (fuel + 1) pids s = some s' ∧
      ∀ q, (s'.procs q = if q ∈ pids ∧ s.aggDone q = false
          then Option.map leafFix (s.procs q) else s.procs q) ∧
        s'.aggDone q =
          (s.aggDone q || (decide (q ∈ pids) && (s.procs q).isSome)) := by
  intro pids
  induction pids with
  | nil =>
    intro s
    refine ⟨s, by rw [aggregateAll], fun q => ⟨by simp, by simp⟩⟩
  | cons p rest ih =>
    intro s
    cases hd : s.aggDone p with
    | true =>
      have hstep : aggStep cm (fuel + 1) p s = some s := by
        show aggStepBody (aggStep cm fuel) cm p s = some s
        unfold aggStepBody
        simp [hd]
      obtain ⟨s', hall, hchar⟩ := ih s
      refine ⟨s', by rw [aggregateAll]; simp only [hstep]; exact hall,
        fun q => ⟨?_, ?_⟩⟩
      · rw [(hchar q).1]
        by_cases hq : q = p
        · subst hq
          simp [hd]
        · by_cases hm : q ∈ rest <;>
            by_cases ha : s.aggDone q = false <;>
            simp [hm, ha, hq, List.mem_cons]
      · rw [(hchar q).2]
        by_cases hq : q = p
        · subst hq
          simp [hd]
        · simp [List.mem_cons, hq]
    | false =>
      cases hex : s.procs p with
      | none =>
        have hstep : aggStep cm (fuel + 1) p s = some s := by
          show aggStepBody (aggStep cm fuel) cm p s = some s
          unfold aggStepBody
          simp [hd, hex]
        obtain ⟨s', hall, hchar⟩ := ih s
        refine ⟨s', by rw [aggregateAll]; simp only [hstep]; exact hall,
          fun q => ⟨?_, ?_⟩⟩
        · rw [(hchar q).1]
          by_cases hq : q = p
          · subst hq
            by_cases hm : q ∈ rest <;> simp [hm, hd, hex]
          · by_cases hm : q ∈ rest <;>
              by_cases ha : s.aggDone q = false <;>
              simp [hm, ha, hq, List.mem_cons]
        · rw [(hchar q).2]
          by_cases hq : q = p
          · subst hq
            simp [hd, hex]
          · simp [List.mem_cons, hq]
      | some info =>
        have hstep : aggStep cm (fuel + 1) p s =
            some (markDone (setProc s p (leafFix info)) p) := by
          show aggStepBody (aggStep cm fuel) cm p s = _
          unfold aggStepBody
          simp [hd, hex, hcm p]
          rfl
        obtain ⟨s', hall, hchar⟩ := ih (markDone (setProc s p (leafFix info)) p)
        refine ⟨s', by rw [aggregateAll]; simp only [hstep]; exact hall,
          fun q => ⟨?_, ?_⟩⟩
        · by_cases hq : q = p
          · subst hq
            rw [if_pos ⟨List.mem_cons_self q rest, hd⟩, hex]
            have h1 := (hchar q).1
            have hfalse : ¬(q ∈ rest ∧
                (markDone (setProc s q (leafFix info)) q).aggDone q = false) := by
              rintro ⟨-, hcon⟩
              rw [markDone_aggDone_self] at hcon
              cases hcon
            rw [if_neg hfalse] at h1
            rw [h1, markDone_procs, setProc_procs_self]
            rfl
          · have e1 : (markDone (setProc s p (leafFix info)) p).procs q =
                s.procs q := by
              rw [markDone_procs]; exact setProc_procs_ne _ _ _ _ hq
            have e2 : (markDone (setProc s p (leafFix info)) p).aggDone q =
                s.aggDone q := markDone_aggDone_ne _ _ _ hq
            have h1 := (hchar q).1
            rw [e1, e2] at h1
            rw [h1]
            by_cases hm : q ∈ rest <;>
              by_cases ha : s.aggDone q = false <;>
              simp [hm, ha, hq, List.mem_cons]
        · by_cases hq : q = p
          · subst hq
            have h2 := (hchar q).2
            rw [markDone_aggDone_self] at h2
            rw [h2]
            simp [hd, hex]
          · have e1 : (markDone (setProc s p (leafFix info)) p).procs q =
                s.procs q := by
              rw [markDone_procs]; exact setProc_procs_ne _ _ _ _ hq
            have e2 : (markDone (setProc s p (leafFix info)) p).aggDone q =
                s.aggDone q := markDone_aggDone_ne _ _ _ hq
            have h2 := (hchar q).2
            rw [e1, e2] at h2
            rw [h2]
            simp [List.mem_cons, hq]

end Monitor

namespace OldMonitor

open Monitor

/-- With no parent links the hierarchy pass of the old engine is a
no-op. -/
theorem pass2_nil (cm : ℕ → List ℕ) (hcm : ∀ q, cm q = []) :
    ∀ (keys : List ℕ) (st : OldState), pass2 cm keys st = st := by
  intro keys
  induction keys with
  | nil => intro st; rfl
  | cons p rest ih =>
    intro st
    show List.foldl _ _ (p :: rest) = st
    rw [List.foldl_cons, hcm p]
    exact ih st

/-- With empty child lists everywhere the aggregation pass of the old
engine is a no-op. -/
theorem oldAgg_id (keys : List ℕ) (st : OldState)
    (hst : ∀ pid n, st.procs pid = some n → n.Children = []) :
    oldAgg keys st = st := by
  induction keys with
  | nil => rfl
  | cons p rest ih =>
    show List.foldl _ _ (p :: rest) = st
    rw [List.foldl_cons]
    have hone : oldAggOne st p = st := by
      unfold oldAggOne
      cases hq : st.qual p with
      | false => simp [hq]
      | true =>
        cases hx : st.procs p with
        | none => simp [hq, hx]
        | some n => simp [hq, hx, hst p n hx]
    rw [hone]
    exact ih

end OldMonitor

section RefinementClaim

open Monitor

/-- Claim C6 (amended): the two engine implementations agree on every
snapshot without parent links (all PPIDs zero, PIDs unique — the
domain where the old engine's struct-sharing maps are faithfully a key
set): both return exactly the qualifying rows, with the MB mirror set,
sorted by CPU descending.  With parent links they disagree (see the
counterexample). -/
theorem engines_agree_childless (fuel : ℕ) (cfg : MonitorConfig)
    (samples : List ProcessInfo)
    (hnodup : (samples.map (·.PID)).Nodup)
    (hpp : ∀ i ∈ samples, i.PPID = 0)
    (hch : ∀ i ∈ samples, i.Children = []) :
    getFilteredCore (fuel + 1) cfg samples =
      some (OldMonitor.oldCore cfg samples) := by
  have hcm : ∀ q, childrenMapOf samples q = [] := by
    intro q
    unfold childrenMapOf
    rw [List.filter_eq_nil_iff.mpr ?_]
    · rfl
    · intro i hi
      simp [hpp i hi]
  obtain ⟨st, hall, hchar⟩ := aggregateAll_leaf (childrenMapOf samples) hcm
    fuel (pidKeys samples) (initState samples)
  set keys := pidKeys samples with hkeys
  set base := keys.filterMap (buildProcs samples) with hbase
  set qual0 : ℕ → Bool := (fun q =>
    match buildProcs samples q with
    | some n => qualP cfg n
    | none => false) with hqual0
  have hnodes : keys.filterMap st.procs = base.map leafFix := by
    rw [hbase]
    calc keys.filterMap st.procs
        = keys.filterMap (fun q => (buildProcs samples q).map leafFix) :=
          List.filterMap_congr (fun q hq => by
            rw [(hchar q).1, if_pos ⟨hq, rfl⟩]; rfl)
      _ = (keys.filterMap (buildProcs samples)).map leafFix :=
          (List.map_filterMap _ _ _).symm
  have hqcorr : ∀ x, qual0 x = true ↔
      x ∈ (base.filter (qualP cfg)).map (·.PID) := by
    intro x
    constructor
    · intro hx
      cases hb : buildProcs samples x with
      | none => simp only [hqual0, hb] at hx; cases hx
      | some n =>
        simp only [hqual0, hb] at hx
        obtain ⟨hmem, hpid⟩ := buildProcs_spec samples x n hb
        refine List.mem_map.mpr ⟨n, List.mem_filter.mpr ⟨?_, hx⟩, hpid⟩
        refine List.mem_filterMap.mpr ⟨x, ?_, hb⟩
        exact List.mem_dedup.mpr (List.mem_map.mpr ⟨n, hmem, hpid⟩)
    · intro hx
      obtain ⟨m, hm, hmx⟩ := List.mem_map.mp hx
      obtain ⟨hmb, hmq⟩ := List.mem_filter.mp hm
      obtain ⟨pid, hpk, hbp⟩ := List.mem_filterMap.mp hmb
      have hpidm := (buildProcs_spec samples pid m hbp).2
      have hpx : pid = x := by rw [← hmx, hpidm]
      subst hpx
      simp only [hqual0, hbp]
      exact hmq
  have eqp : (qualifyingOf cfg (base.map leafFix)).map (·.PID) =
      (base.filter (qualP cfg)).map (·.PID) := by
    show ((base.map leafFix).filter (qualP cfg)).map (·.PID) = _
    rw [List.filter_map, List.map_map]
    rfl
  have hqof : qualifyingOf cfg (base.map leafFix) =
      keys.filterMap (fun pid =>
        ((buildProcs samples pid).map leafFix).filter (qualP cfg)) := by
    show (base.map leafFix).filter (qualP cfg) = _
    rw [hbase, List.map_filterMap, List.filter_filterMap]
  have hLe : (keys.filterMap (fun pid =>
      ((buildProcs samples pid).map leafFix).filter (qualP cfg))).map
        (·.PID) = (base.filter (qualP cfg)).map (·.PID) := by
    rw [← hqof]
    exact eqp
  have hlist : topLevelOf cfg (base.map leafFix) =
      OldMonitor.oldTop keys ⟨buildProcs samples, qual0⟩ := by
    show (qualifyingOf cfg (base.map leafFix)).filter
      (fun n => decide (n.PPID ∉
        (qualifyingOf cfg (base.map leafFix)).map (·.PID))) = _
    rw [hqof, List.filter_filterMap]
    unfold OldMonitor.oldTop
    apply List.filterMap_congr
    intro pid hpid
    cases hb : buildProcs samples pid with
    | none => simp [hqual0, hb, Option.filter]
    | some n =>
      cases hqn : qualP cfg n with
      | false =>
        have hqlf : qualP cfg (leafFix n) = false := hqn
        simp [hqual0, hb, hqn, Option.filter, hqlf]
      | true =>
        have hchn : n.Children = [] := hch n (buildProcs_spec samples pid n hb).1
        have hqlf : qualP cfg (leafFix n) = true := hqn
        cases hpq : qual0 n.PPID with
        | true =>
          have hmem' : n.PPID ∈ (keys.filterMap (fun pid =>
              ((buildProcs samples pid).map leafFix).filter
                (qualP cfg))).map (·.PID) := by
            rw [hLe]
            exact (hqcorr n.PPID).mp hpq
          simp only [hqual0] at hpq
          simp [hqual0, hb, hqn, Option.filter, hqlf, hpq]
          obtain ⟨a, ha, hap⟩ := List.mem_map.mp hmem'
          obtain ⟨a1, ha1, hfa⟩ := List.mem_filterMap.mp ha
          exact ⟨a, a1, ha1, hfa, hap⟩
        | false =>
          have hmem' : n.PPID ∉ (keys.filterMap (fun pid =>
              ((buildProcs samples pid).map leafFix).filter
                (qualP cfg))).map (·.PID) := by
            rw [hLe]
            intro hcon
            rw [(hqcorr n.PPID).mpr hcon] at hpq
            cases hpq
          simp only [hqual0] at hpq
          simp [hqual0, hb, hqn, Option.filter, hqlf, hpq]
          rw [if_pos hchn]
          split
          · rfl
          · next hcon => exact absurd (decide_eq_true hmem') hcon
  have hold : OldMonitor.oldCore cfg samples =
      sortCPUDesc (OldMonitor.oldTop keys ⟨buildProcs samples, qual0⟩) := by
    show sortCPUDesc (OldMonitor.oldTop keys
      (OldMonitor.oldAgg keys (OldMonitor.pass2 (childrenMapOf samples) keys
        ⟨buildProcs samples, qual0⟩))) = _
    rw [OldMonitor.pass2_nil (childrenMapOf samples) hcm,
      OldMonitor.oldAgg_id keys ⟨buildProcs samples, qual0⟩
        (fun pid n h => hch n (buildProcs_spec samples pid n h).1)]
  show Option.map _ (Option.map _ (aggregateAll (childrenMapOf samples)
    (fuel + 1) keys (initState samples))) = _
  rw [hall]
  simp only [Option.map_some']
  rw [hnodes, hlist, hold]

/-- Childless snapshot for the witness of the amended C6. -/
def c6wS : List ProcessInfo :=
  [⟨1, 0, "worker", 10, 5, 0, [], false, 0, 0⟩,
    ⟨2, 0, "cache", 1, 2000, 0, [], false, 0, 0⟩,
    ⟨3, 0, "tiny", 1, 2, 0, [], false, 0, 0⟩]

/-- Thresholds for the amended-C6 witness. -/
def c6wCfg : MonitorConfig := ⟨5, 100⟩

/-- Witness for the amended C6 on a concrete childless snapshot. -/
theorem engines_agree_childless_witness :
    (c6wS.map (·.PID)).Nodup ∧ (∀ i ∈ c6wS, i.PPID = 0) ∧
      (∀ i ∈ c6wS, i.Children = []) ∧
      getFilteredCore 1 c6wCfg c6wS = some (OldMonitor.oldCore c6wCfg c6wS) :=
  ⟨by decide, by decide, by decide,
    engines_agree_childless 0 c6wCfg c6wS (by decide) (by decide) (by decide)⟩

end RefinementClaim
